import Mathlib

/-
Verification of the emotional-data reduction core (`hume_processor.py`):
peak extraction, transition detection, summary composition, candidate
interval construction with a merge sweep, and prompt formatting.

Numbers that the Python code handles as floats are modelled as rationals;
`round(x, 2)` and the fixed-point format specifiers round halves to even,
as Python's `round` and `format` do.  Dictionary fields that the source
reads with `.get(key, default)` are modelled as `Option` fields read with
`Option.getD`.  The `Option`-valued variants (`...O`) additionally model
every raw subscript access of the source (`segments[i]`, `transitions[0]`,
`merged[-1]`, `language['segments'][0]`) as a fallible lookup, so that
totality over the input shape is a theorem rather than a typing accident.
-/

namespace HumeProcessor

/-- Round a rational to the nearest integer, halves to even: the semantics
of Python's builtin `round` applied to an exact value. -/
def roundHalfEven (x : ℚ) : ℤ :=
  if x - ⌊x⌋ < 1/2 then ⌊x⌋
  else if (1:ℚ)/2 < x - ⌊x⌋ then ⌊x⌋ + 1
  else if ⌊x⌋ % 2 = 0 then ⌊x⌋ else ⌊x⌋ + 1

/-- Model of `round(x, 2)` from the source: round to two decimal places. -/
def round2 (x : ℚ) : ℚ := (roundHalfEven (100 * x) : ℚ) / 100

/-- Pad a digit string with leading zeros up to width `d`. -/
def padZeros (d : ℕ) (s : String) : String :=
  String.mk (List.replicate (d - s.length) '0') ++ s

/-- Fixed-point rendering of a rational with `d` fractional digits: the
semantics of the format specifiers such as `:.1f` and `:.0f` used in
`create_emotional_summary` and `format_for_prompt`. -/
def fmtFixed (d : ℕ) (x : ℚ) : String :=
  let m := roundHalfEven (x * (10:ℚ)^d)
  let sign := if m < 0 then "-" else ""
  let a := m.natAbs
  if d = 0 then sign ++ toString a
  else sign ++ toString (a / 10^d) ++ "." ++ padZeros d (toString (a % 10^d))

/-- A `dominant_emotion` dictionary.  Both keys may be absent; the source
reads them with `.get('name', ...)` and `.get('score', 0)`. -/
structure DominantEmotion where
  name : Option String
  score : Option ℚ
deriving DecidableEq

/-- One entry of a `segments` list.  `time_begin` models the nested
`.get('time', dict()).get('begin', 0)` lookup; each field may be absent. -/
structure Segment where
  time_begin : Option ℚ
  text : Option String
  dominant_emotion : Option DominantEmotion
deriving DecidableEq

/-- Model of `segment.get('dominant_emotion', dict())`: an absent
dictionary behaves as one with both keys absent. -/
def Segment.dom (s : Segment) : DominantEmotion :=
  s.dominant_emotion.getD ⟨none, none⟩

/-- The raw Hume record: three optional channels, matching the top-level
lookups `hume_data.get('speech_prosody', ...)`, `.get('vocal_burst', ...)`
and `.get('language', ...)` each followed by `.get('segments', list())`. -/
structure HumeData where
  speech_prosody_segments : Option (List Segment)
  vocal_burst_segments : Option (List Segment)
  language_segments : Option (List Segment)

/-- The prosody segment list, defaulting to empty when the channel is absent. -/
def HumeData.prosody (h : HumeData) : List Segment :=
  h.speech_prosody_segments.getD []

/-- The vocal-burst segment list, defaulting to empty when the channel is absent. -/
def HumeData.vocalBurst (h : HumeData) : List Segment :=
  h.vocal_burst_segments.getD []

/-- The language segment list, defaulting to empty when the channel is absent. -/
def HumeData.language (h : HumeData) : List Segment :=
  h.language_segments.getD []

/-- A peak dictionary as built by `extract_emotional_peaks`. -/
structure Peak where
  time : ℚ
  emotion : String
  score : ℚ
  text_snippet : String
deriving DecidableEq

/-- A transition dictionary as built by `detect_emotional_transitions`. -/
structure Transition where
  time : ℚ
  from_emotion : String
  to_emotion : String
  intensity : ℚ
deriving DecidableEq

/-- A key-moment dictionary as built by the `full_summary` strategy. -/
structure KeyMoment where
  time : String
  event : String
deriving DecidableEq

/-- The summary dictionary assembled by `create_emotional_summary`; each
field models the presence or absence of the corresponding key. -/
structure Summary where
  overall_mood : Option String
  mood_confidence : Option ℚ
  emotional_peaks : Option (List Peak)
  emotional_transitions : Option (List Transition)
  key_moments : Option (List KeyMoment)
  emotional_arc : Option String
deriving DecidableEq

/-- The summary with no keys set. -/
def Summary.empty : Summary := ⟨none, none, none, none, none, none⟩

/-- A `(start_time, end_time, reason)` tuple of
`identify_punchline_candidates`; `stop` models the tuple's end time. -/
structure CandidateInterval where
  start : ℚ
  stop : ℚ
  reason : String
deriving DecidableEq

section StableSort

variable {α : Type} (keep : α → α → Prop) [DecidableRel keep]

/-- Insert `x` behind every element `q` satisfying `keep q x`.  With
`keep q x` meaning that `q` precedes `x` in the sort order (weakly), this
realizes one step of a stable sort, as Python's stable `list.sort` does. -/
def insertStable (x : α) : List α → List α
  | [] => [x]
  | q :: qs => if keep q x then q :: insertStable x qs else x :: q :: qs

/-- Stable sort by repeated insertion: the model of `list.sort(key=...)`,
which is stable and total on the given key order. -/
def sortStable (l : List α) : List α :=
  l.foldl (fun acc y => insertStable keep y acc) []

end StableSort

/-- Sort order of `peaks.sort(key=lambda x: x['score'], reverse=True)`:
`a` may stay before an incoming `b` when its score is at least `b`'s. -/
def peakKeep (a b : Peak) : Prop := b.score ≤ a.score

instance : DecidableRel peakKeep :=
  fun a b => inferInstanceAs (Decidable (b.score ≤ a.score))

/-- Sort order of `candidates.sort(key=lambda x: x[0])`: ascending starts. -/
def intervalKeep (a b : CandidateInterval) : Prop := a.start ≤ b.start

instance : DecidableRel intervalKeep :=
  fun a b => inferInstanceAs (Decidable (a.start ≤ b.start))

/-- The peak emitted for one `speech_prosody` segment (source lines 49-57):
emitted iff the dominant score (default 0) reaches the threshold. -/
def prosody_peak (threshold : ℚ) (segment : Segment) : Option Peak :=
  let dominant := segment.dom
  if threshold ≤ dominant.score.getD 0 then
    some { time := segment.time_begin.getD 0
         , emotion := dominant.name.getD "Unknown"
         , score := round2 (dominant.score.getD 0)
         , text_snippet := (segment.text.getD "").take 30 ++ "..." }
  else none

/-- The peak emitted for one `vocal_burst` segment (source lines 60-69). -/
def vocal_burst_peak (threshold : ℚ) (segment : Segment) : Option Peak :=
  let dominant := segment.dom
  if threshold ≤ dominant.score.getD 0 then
    some { time := segment.time_begin.getD 0
         , emotion := "VocalBurst:" ++ dominant.name.getD "Unknown"
         , score := round2 (dominant.score.getD 0)
         , text_snippet := "[Non-verbal expression]" }
  else none

/-- The `peaks` list right before sorting: prosody-derived peaks in
segment order followed by vocal-burst-derived peaks in segment order. -/
def emittedPeaks (h : HumeData) (threshold : ℚ) : List Peak :=
  h.prosody.filterMap (prosody_peak threshold)
    ++ h.vocalBurst.filterMap (vocal_burst_peak threshold)

/-- `HumeProcessor.extract_emotional_peaks` (defaults `top_n=5`,
`threshold=0.3`): emit, sort stably by descending score, keep `top_n`. -/
def extract_emotional_peaks (h : HumeData) (top_n : ℕ) (threshold : ℚ) : List Peak :=
  (sortStable peakKeep (emittedPeaks h threshold)).take top_n

/-- The transition emitted for one adjacent segment pair (source lines
95-106): only when the raw dominant-emotion names differ and the current
score (default 0) reaches the change threshold. -/
def transitionAt (change_threshold : ℚ) (prev curr : Segment) : Option Transition :=
  let prev_emotion := prev.dom
  let curr_emotion := curr.dom
  if prev_emotion.name ≠ curr_emotion.name then
    if change_threshold ≤ curr_emotion.score.getD 0 then
      some { time := curr.time_begin.getD 0
           , from_emotion := prev_emotion.name.getD "Unknown"
           , to_emotion := curr_emotion.name.getD "Unknown"
           , intensity := round2 (curr_emotion.score.getD 0) }
    else none
  else none

/-- `HumeProcessor.detect_emotional_transitions` (default
`change_threshold=0.2`): the loop `for i in range(1, len(segments))`
appending at most one transition per adjacent pair. -/
def detect_emotional_transitions (h : HumeData) (change_threshold : ℚ) : List Transition :=
  let segments := h.prosody
  (List.range' 1 (segments.length - 1)).foldl
    (fun transitions i =>
      match segments[i-1]?, segments[i]? with
      | some prev, some curr =>
          transitions ++ (transitionAt change_threshold prev curr).toList
      | _, _ => transitions)
    []

/-- The mood fields always attempted first by `create_emotional_summary`
(source lines 131-135), from the first language segment when one exists. -/
def moodSummary (h : HumeData) : Summary :=
  match h.language with
  | [] => Summary.empty
  | first :: _ =>
      { Summary.empty with
          overall_mood := some (first.dom.name.getD "Unknown")
        , mood_confidence := some (round2 (first.dom.score.getD 0)) }

/-- One `key_moments` entry of the `full_summary` strategy (source lines
157-160), with Python's `:.1f` and `:.0f` renderings. -/
def keyMomentOf (p : Peak) : KeyMoment :=
  { time := fmtFixed 1 p.time ++ "s"
  , event := p.emotion ++ " (" ++ fmtFixed 0 (p.score * 100) ++ "%)" }

/-- `HumeProcessor.create_emotional_summary` (defaults `threshold=0.3`,
`top_n=5`, `change_threshold=0.2` supplied via kwargs). -/
def create_emotional_summary (h : HumeData) (strategy : String)
    (threshold : ℚ) (top_n : ℕ) (change_threshold : ℚ) : Summary :=
  let base := moodSummary h
  if strategy = "peaks" then
    { base with emotional_peaks := some (extract_emotional_peaks h top_n threshold) }
  else if strategy = "transitions" then
    { base with emotional_transitions := some ((detect_emotional_transitions h change_threshold).take 5) }
  else if strategy = "full_summary" then
    let peaks := extract_emotional_peaks h 3 (35/100)
    let transitions := detect_emotional_transitions h (25/100)
    let base := { base with key_moments := some ((peaks.take 2).map keyMomentOf) }
    match transitions with
    | [] => base
    | t0 :: _ =>
        let arc0 : List String :=
          if t0.from_emotion ∈ ([] : List String) then [] else [t0.from_emotion]
        let arc := (transitions.take 3).foldl
          (fun acc t => if t.to_emotion ∈ acc then acc else acc ++ [t.to_emotion]) arc0
        { base with emotional_arc := some (String.intercalate " → " arc) }
  else base

/-- One entry of the `Peak moments` line of `format_for_prompt`. -/
def peakLine (p : Peak) : String :=
  "[" ++ fmtFixed 0 p.time ++ "s: " ++ p.emotion ++ " "
    ++ fmtFixed 0 (p.score * 100) ++ "%]"

/-- The lines accumulated by `format_for_prompt` (source lines 185-203),
one optional line per summary key, in source order.  The peaks line is
skipped when the list under `emotional_peaks` is empty (`if peaks:`); the
key-moments line is produced whenever the key is present. -/
def format_lines (s : Summary) : List String :=
  (match s.overall_mood with
   | some m => ["Overall mood: " ++ m]
   | none => []) ++
  (match s.emotional_peaks with
   | some peaks =>
       if peaks.isEmpty then []
       else ["Peak moments: " ++ String.intercalate ", " ((peaks.take 3).map peakLine)]
   | none => []) ++
  (match s.emotional_arc with
   | some arc => ["Emotional journey: " ++ arc]
   | none => []) ++
  (match s.key_moments with
   | some moments =>
       ["Key moments: " ++ String.intercalate ", "
          ((moments.take 2).map (fun m => m.event ++ " at " ++ m.time))]
   | none => [])

/-- `HumeProcessor.format_for_prompt`: the joined text block. -/
def format_for_prompt (s : Summary) : String :=
  String.intercalate "\n" (format_lines s)

/-- The reason chain of `identify_punchline_candidates` (source lines
233-242): exact, case-sensitive membership tests against the four
category lists, falling back to the generic formatted reason. -/
def reasonFor (emotion : String) : String :=
  if emotion ∈ ["Amusement", "Joy", "Excitement"] then "High humor/joy moment"
  else if emotion ∈ ["Sadness", "Empathic Pain"] then "Emotional/touching moment"
  else if emotion ∈ ["Surprise (positive)", "Surprise (negative)"] then "Unexpected twist"
  else if emotion ∈ ["Contemplation", "Realization"] then "Insightful observation"
  else "Strong " ++ emotion ++ " moment"

/-- The candidate window built around one peak (source lines 229-244). -/
def peakInterval (time_window : ℚ) (peak : Peak) : CandidateInterval :=
  { start := max 0 (peak.time - time_window)
  , stop := peak.time + time_window
  , reason := reasonFor peak.emotion }

/-- The candidate window built around one raw vocal-burst segment
(source lines 247-252), unfiltered by any threshold. -/
def burstInterval (burst : Segment) : CandidateInterval :=
  { start := max 0 (burst.time_begin.getD 0 - 1)
  , stop := burst.time_begin.getD 0 + 1
  , reason := "Non-verbal expression" }

/-- The in-place update `merged[-1] = (merged[-1][0], max(end,
merged[-1][1]), merged[-1][2] + ' + ' + reason)` of the merge sweep. -/
def mergeTwo (last c : CandidateInterval) : CandidateInterval :=
  { start := last.start
  , stop := max c.stop last.stop
  , reason := last.reason ++ " + " ++ c.reason }

/-- One step of the merge sweep (source lines 258-265).  The Python loop
appends to the end of `merged` and mutates `merged[-1]`; here the merged
list is accumulated in reverse, so the most recent interval is the head. -/
def mergeStepRev (acc : List CandidateInterval) (c : CandidateInterval) :
    List CandidateInterval :=
  match acc with
  | [] => [c]
  | last :: rest =>
      if c.start ≤ last.stop then mergeTwo last c :: rest
      else c :: last :: rest

/-- The whole left-to-right merge sweep over a candidate list. -/
def mergeIntervals (l : List CandidateInterval) : List CandidateInterval :=
  (l.foldl mergeStepRev []).reverse

/-- `HumeProcessor.identify_punchline_candidates` (default
`time_window=2.0`): peak windows, then raw burst windows, sorted stably by
start, merged, and cut to the first 7. -/
def identify_punchline_candidates (h : HumeData) (time_window : ℚ) :
    List CandidateInterval :=
  let peaks := extract_emotional_peaks h 10 (25/100)
  let candidates := peaks.map (peakInterval time_window)
    ++ h.vocalBurst.map burstInterval
  (mergeIntervals (sortStable intervalKeep candidates)).take 7

/-- Fallible variant of `extract_emotional_peaks`: the source loops hold
no raw subscript access, so both passes are effect-free folds. -/
def extract_emotional_peaksO (h : HumeData) (top_n : ℕ) (threshold : ℚ) :
    Option (List Peak) := do
  let peaks ← h.prosody.foldlM
    (fun acc seg => pure (acc ++ (prosody_peak threshold seg).toList)) ([] : List Peak)
  let peaks ← h.vocalBurst.foldlM
    (fun acc seg => pure (acc ++ (vocal_burst_peak threshold seg).toList)) peaks
  pure ((sortStable peakKeep peaks).take top_n)

/-- Fallible variant of `detect_emotional_transitions`: the subscript
accesses `segments[i-1]` and `segments[i]` of the range loop are modelled
as fallible lookups. -/
def detect_emotional_transitionsO (h : HumeData) (change_threshold : ℚ) :
    Option (List Transition) :=
  let segments := h.prosody
  (List.range' 1 (segments.length - 1)).foldlM
    (fun transitions i => do
      let prev ← segments[i-1]?
      let curr ← segments[i]?
      pure (transitions ++ (transitionAt change_threshold prev curr).toList))
    []

/-- Fallible variant of the mood fields: the `language['segments'][0]`
subscript behind the `if language.get('segments'):` guard is modelled as a
fallible head lookup. -/
def moodSummaryO (h : HumeData) : Option Summary :=
  if (h.language).isEmpty then pure Summary.empty
  else do
    let first ← h.language.head?
    pure { Summary.empty with
             overall_mood := some (first.dom.name.getD "Unknown")
           , mood_confidence := some (round2 (first.dom.score.getD 0)) }

/-- Fallible variant of `create_emotional_summary`: the guarded subscript
`language['segments'][0]` and `transitions[0]` accesses are modelled as
fallible head lookups behind the source's emptiness guards. -/
def create_emotional_summaryO (h : HumeData) (strategy : String)
    (threshold : ℚ) (top_n : ℕ) (change_threshold : ℚ) : Option Summary := do
  let base ← moodSummaryO h
  if strategy = "peaks" then do
    let peaks ← extract_emotional_peaksO h top_n threshold
    pure { base with emotional_peaks := some peaks }
  else if strategy = "transitions" then do
    let ts ← detect_emotional_transitionsO h change_threshold
    pure { base with emotional_transitions := some (ts.take 5) }
  else if strategy = "full_summary" then do
    let peaks ← extract_emotional_peaksO h 3 (35/100)
    let ts ← detect_emotional_transitionsO h (25/100)
    let base := { base with key_moments := some ((peaks.take 2).map keyMomentOf) }
    if 0 < ts.length then do
      let t0 ← ts.head?
      let arc0 : List String :=
        if t0.from_emotion ∈ ([] : List String) then [] else [t0.from_emotion]
      let arc := (ts.take 3).foldl
        (fun acc t => if t.to_emotion ∈ acc then acc else acc ++ [t.to_emotion]) arc0
      pure { base with emotional_arc := some (String.intercalate " → " arc) }
    else pure base
  else pure base

/-- Fallible variant of one merge-sweep step: the `merged[-1]` accesses
behind the `if merged and ...` guard are modelled as fallible head
lookups of the reversed accumulator. -/
def mergeStepRevO (acc : List CandidateInterval) (c : CandidateInterval) :
    Option (List CandidateInterval) :=
  if acc.isEmpty then pure (c :: acc)
  else do
    let last ← acc.head?
    if c.start ≤ last.stop then pure (mergeTwo last c :: acc.tail)
    else pure (c :: acc)

/-- Fallible variant of `identify_punchline_candidates`. -/
def identify_punchline_candidatesO (h : HumeData) (time_window : ℚ) :
    Option (List CandidateInterval) := do
  let peaks ← extract_emotional_peaksO h 10 (25/100)
  let candidates := peaks.map (peakInterval time_window)
    ++ h.vocalBurst.map burstInterval
  let merged ← (sortStable intervalKeep candidates).foldlM mergeStepRevO []
  pure (merged.reverse.take 7)

/-- The emotional-arc name sequence exactly as the specification words it:
start with the first transition's `from_emotion`, then append the
`to_emotion` of each of the first 3 transitions unless already present. -/
def specArcParts (t0 : Transition) (ts : List Transition) : List String :=
  ((ts.take 3).map (fun t => t.to_emotion)).foldl
    (fun acc e => if e ∈ acc then acc else acc ++ [e]) [t0.from_emotion]

/-- All segment begin times of the peak-feeding channels are non-negative
(an absent begin time reads as the default 0). -/
def begTimesNonneg (h : HumeData) : Prop :=
  ∀ s ∈ h.prosody ++ h.vocalBurst, 0 ≤ s.time_begin.getD 0

/-- Consecutive intervals are disjoint and strictly ordered: the shape of
a merge-sweep output, in output order. -/
def Separated (l : List CandidateInterval) : Prop :=
  l.Chain' (fun a b => a.stop < b.start)

/-- The same shape on a reversed accumulator (most recent interval first). -/
def SepRev (l : List CandidateInterval) : Prop :=
  l.Chain' (fun a b => b.stop < a.start)

/-- A segment whose three fields are all present, for concrete inputs. -/
def mkSeg (t : ℚ) (name : String) (score : ℚ) : Segment :=
  ⟨some t, none, some ⟨some name, some score⟩⟩

/-- The record with every channel absent. -/
def emptyRecord : HumeData := ⟨none, none, none⟩

/-- A record whose single prosody segment scores 0.304: compared against
threshold 0.302 it passes, yet its stored rounded score 0.30 does not. -/
def roundingRecord : HumeData := ⟨some [mkSeg 1 "Joy" (38/125)], none, none⟩

/-- A record with exactly one prosody segment. -/
def oneSegRecord : HumeData := ⟨some [mkSeg 0 "Joy" (1/2)], none, none⟩

/-- A record with one strong prosody segment at time 5. -/
def peakAt5Record : HumeData := ⟨some [mkSeg 5 "Joy" (1/2)], none, none⟩

/-- A summary whose `emotional_peaks` key holds the empty list. -/
def peaksEmptySummary : Summary :=
  { Summary.empty with emotional_peaks := some ([] : List Peak) }

section StableSortLemmas

variable {α : Type} (keep : α → α → Prop) [DecidableRel keep]

theorem insertStable_perm (x : α) (l : List α) :
    List.Perm (insertStable keep x l) (x :: l) := by
  induction l with
  | nil => simp [insertStable]
  | cons q qs ih =>
    by_cases hk : keep q x
    · simp only [insertStable, if_pos hk]
      exact (ih.cons q).trans (List.Perm.swap x q qs)
    · simp [insertStable, if_neg hk]

theorem foldl_insertStable_perm (l acc : List α) :
    List.Perm (l.foldl (fun acc y => insertStable keep y acc) acc) (l ++ acc) := by
  induction l generalizing acc with
  | nil => simp
  | cons c l' ih =>
    simp only [List.foldl_cons, List.cons_append]
    exact (ih (insertStable keep c acc)).trans
      ((List.Perm.append_left l' (insertStable_perm keep c acc)).trans List.perm_middle)

theorem sortStable_perm (l : List α) : List.Perm (sortStable keep l) l := by
  simpa [sortStable] using foldl_insertStable_perm keep l []

theorem mem_sortStable {a : α} {l : List α} : a ∈ sortStable keep l ↔ a ∈ l :=
  (sortStable_perm keep l).mem_iff

theorem pairwise_insertStable
    (htr : ∀ a b c, keep a b → keep b c → keep a c)
    (hto : ∀ a b, ¬ keep a b → keep b a)
    (x : α) (l : List α) (hl : l.Pairwise keep) :
    (insertStable keep x l).Pairwise keep := by
  induction l with
  | nil => simp [insertStable]
  | cons q qs ih =>
    rcases List.pairwise_cons.mp hl with ⟨hq, hqs⟩
    by_cases hk : keep q x
    · simp only [insertStable, if_pos hk]
      refine List.pairwise_cons.mpr ⟨?_, ih hqs⟩
      intro y hy
      rcases List.mem_cons.mp ((insertStable_perm keep x qs).mem_iff.mp hy) with rfl | hy'
      · exact hk
      · exact hq y hy'
    · simp only [insertStable, if_neg hk]
      refine List.pairwise_cons.mpr ⟨?_, hl⟩
      intro y hy
      rcases List.mem_cons.mp hy with rfl | hy'
      · exact hto _ _ hk
      · exact htr _ _ _ (hto _ _ hk) (hq y hy')

theorem pairwise_sortStable
    (htr : ∀ a b c, keep a b → keep b c → keep a c)
    (hto : ∀ a b, ¬ keep a b → keep b a)
    (l : List α) : (sortStable keep l).Pairwise keep := by
  have aux : ∀ (l acc : List α), acc.Pairwise keep →
      (l.foldl (fun acc y => insertStable keep y acc) acc).Pairwise keep := by
    intro l
    induction l with
    | nil => intro acc h; exact h
    | cons c l' ih =>
      intro acc h
      exact ih _ (pairwise_insertStable keep htr hto c acc h)
  exact aux l [] (by simp)

theorem filter_insertStable_pos
    (htr : ∀ a b c, keep a b → keep b c → keep a c)
    (p : α → Bool) (hp : ∀ a b, p a = true → p b = true → keep a b)
    (x : α) (hx : p x = true) (l : List α) (hl : l.Pairwise keep) :
    (insertStable keep x l).filter p = l.filter p ++ [x] := by
  induction l with
  | nil => simp [insertStable, hx]
  | cons q qs ih =>
    rcases List.pairwise_cons.mp hl with ⟨hq, hqs⟩
    by_cases hk : keep q x
    · simp only [insertStable, if_pos hk]
      cases hpq : p q with
      | true =>
        rw [List.filter_cons_of_pos hpq, List.filter_cons_of_pos hpq, ih hqs]
        simp
      | false =>
        rw [List.filter_cons_of_neg (by simp [hpq]),
          List.filter_cons_of_neg (by simp [hpq]), ih hqs]
    · simp only [insertStable, if_neg hk]
      have hnil : (q :: qs).filter p = [] := by
        refine List.filter_eq_nil_iff.mpr ?_
        intro y hy hpy
        rcases List.mem_cons.mp hy with rfl | hy'
        · exact hk (hp _ _ hpy hx)
        · exact hk (htr _ _ _ (hq y hy') (hp _ _ hpy hx))
      rw [List.filter_cons_of_pos hx, hnil]
      simp

theorem filter_insertStable_neg
    (p : α → Bool) (x : α) (hx : p x = false) (l : List α) :
    (insertStable keep x l).filter p = l.filter p := by
  induction l with
  | nil => simp [insertStable, hx]
  | cons q qs ih =>
    by_cases hk : keep q x
    · simp only [insertStable, if_pos hk]
      cases hpq : p q with
      | true => rw [List.filter_cons_of_pos hpq, List.filter_cons_of_pos hpq, ih]
      | false =>
        rw [List.filter_cons_of_neg (by simp [hpq]),
          List.filter_cons_of_neg (by simp [hpq]), ih]
    · simp only [insertStable, if_neg hk]
      rw [List.filter_cons_of_neg (by simp [hx])]

theorem filter_sortStable
    (htr : ∀ a b c, keep a b → keep b c → keep a c)
    (hto : ∀ a b, ¬ keep a b → keep b a)
    (p : α → Bool) (hp : ∀ a b, p a = true → p b = true → keep a b)
    (l : List α) : (sortStable keep l).filter p = l.filter p := by
  have aux : ∀ (l acc : List α), acc.Pairwise keep →
      (l.foldl (fun acc y => insertStable keep y acc) acc).filter p
        = acc.filter p ++ l.filter p := by
    intro l
    induction l with
    | nil => intro acc _; simp
    | cons c l' ih =>
      intro acc hacc
      simp only [List.foldl_cons]
      rw [ih _ (pairwise_insertStable keep htr hto c acc hacc)]
      cases hpc : p c with
      | true =>
        rw [filter_insertStable_pos keep htr p hp c hpc acc hacc,
          List.filter_cons_of_pos hpc]
        simp
      | false =>
        rw [filter_insertStable_neg keep p c hpc acc,
          List.filter_cons_of_neg (by simp [hpc])]
  simpa [sortStable] using aux l [] (by simp)

end StableSortLemmas

theorem roundHalfEven_ge (y : ℚ) : y - 1/2 ≤ (roundHalfEven y : ℚ) := by
  have h1 : (⌊y⌋ : ℚ) ≤ y := Int.floor_le y
  have h2 : y - 1 < (⌊y⌋ : ℚ) := Int.sub_one_lt_floor y
  unfold roundHalfEven
  split_ifs with ha hb hc <;> push_cast <;> linarith

theorem round2_ge (x : ℚ) : x - 1/200 ≤ round2 x := by
  have h := roundHalfEven_ge (100 * x)
  unfold round2
  linarith

theorem peakKeep_trans : ∀ a b c, peakKeep a b → peakKeep b c → peakKeep a c :=
  fun _ _ _ h1 h2 => le_trans h2 h1

theorem peakKeep_total : ∀ a b, ¬ peakKeep a b → peakKeep b a :=
  fun _ _ h => le_of_not_le h

theorem mem_emitted_of_mem_extract {h : HumeData} {n : ℕ} {t : ℚ} {p : Peak}
    (hp : p ∈ extract_emotional_peaks h n t) : p ∈ emittedPeaks h t :=
  (mem_sortStable peakKeep).mp (List.take_subset _ _ hp)

theorem exists_raw_of_mem_emitted {h : HumeData} {t : ℚ} {p : Peak}
    (hp : p ∈ emittedPeaks h t) :
    ∃ raw, t ≤ raw ∧ p.score = round2 raw := by
  rcases List.mem_append.mp hp with hp' | hp'
  · rcases List.mem_filterMap.mp hp' with ⟨seg, _, hseg⟩
    simp only [prosody_peak] at hseg
    split_ifs at hseg with hc
    · rw [Option.some_inj] at hseg
      subst hseg
      exact ⟨_, hc, rfl⟩
  · rcases List.mem_filterMap.mp hp' with ⟨seg, _, hseg⟩
    simp only [vocal_burst_peak] at hseg
    split_ifs at hseg with hc
    · rw [Option.some_inj] at hseg
      subst hseg
      exact ⟨_, hc, rfl⟩

theorem time_nonneg_of_mem_emitted {h : HumeData} {t : ℚ} {p : Peak}
    (hb : begTimesNonneg h) (hp : p ∈ emittedPeaks h t) : 0 ≤ p.time := by
  rcases List.mem_append.mp hp with hp' | hp'
  · rcases List.mem_filterMap.mp hp' with ⟨seg, hmem, hseg⟩
    have hge := hb seg (List.mem_append_left _ hmem)
    simp only [prosody_peak] at hseg
    split_ifs at hseg with hc
    · rw [Option.some_inj] at hseg
      subst hseg
      exact hge
  · rcases List.mem_filterMap.mp hp' with ⟨seg, hmem, hseg⟩
    have hge := hb seg (List.mem_append_right _ hmem)
    simp only [vocal_burst_peak] at hseg
    split_ifs at hseg with hc
    · rw [Option.some_inj] at hseg
      subst hseg
      exact hge

/-- C1 counterexample: on a record whose single prosody segment has raw
dominant score 0.304, extraction with threshold 0.302 returns a peak, but
its stored score is the rounded 0.30, which is below the threshold.  So it
is not the case that every returned peak has score at least the threshold. -/
theorem extract_peaks_threshold_cex :
    ¬ (∀ p ∈ extract_emotional_peaks roundingRecord 5 (151/500),
        (151:ℚ)/500 ≤ p.score) := by
  intro hall
  have hmap : (extract_emotional_peaks roundingRecord 5 (151/500)).map Peak.score
      = [round2 (38/125)] := by
    norm_num [extract_emotional_peaks, emittedPeaks, roundingRecord, HumeData.prosody,
      HumeData.vocalBurst, prosody_peak, vocal_burst_peak, mkSeg, Segment.dom,
      sortStable, insertStable, List.filterMap_cons, List.filterMap_nil,
      Option.getD_some, Option.getD_none]
  have hle : (151:ℚ)/500 ≤ round2 (38/125) := by
    have hm : round2 (38/125)
        ∈ (extract_emotional_peaks roundingRecord 5 (151/500)).map Peak.score := by
      rw [hmap]
      exact List.mem_singleton.mpr rfl
    rcases List.mem_map.mp hm with ⟨p, hp, hps⟩
    rw [← hps]
    exact hall p hp
  norm_num [round2, roundHalfEven] at hle

/-- C1 (amended): every peak returned by `extract_emotional_peaks` with
threshold `t` has as its stored score the two-decimal rounding of an
underlying raw dominant score that is at least `t`; consequently the
stored score is at least `t - 1/200`.  (The claim as stated, with the
stored score itself at least `t`, fails: see the counterexample.) -/
theorem extract_peaks_score_within_rounding_of_threshold
    (h : HumeData) (top_n : ℕ) (threshold : ℚ) (p : Peak)
    (hp : p ∈ extract_emotional_peaks h top_n threshold) :
    (∃ raw, threshold ≤ raw ∧ p.score = round2 raw)
      ∧ threshold - 1/200 ≤ p.score := by
  obtain ⟨raw, hraw, hscore⟩ := exists_raw_of_mem_emitted (mem_emitted_of_mem_extract hp)
  refine ⟨⟨raw, hraw, hscore⟩, ?_⟩
  rw [hscore]
  have := round2_ge raw
  linarith

theorem extract_peaks_score_within_rounding_of_threshold_witness :
    ∃ p, p ∈ extract_emotional_peaks roundingRecord 5 (151/500) ∧
      ((∃ raw, (151:ℚ)/500 ≤ raw ∧ p.score = round2 raw)
        ∧ (151:ℚ)/500 - 1/200 ≤ p.score) := by
  have hmap : (extract_emotional_peaks roundingRecord 5 (151/500)).map Peak.score
      = [round2 (38/125)] := by
    norm_num [extract_emotional_peaks, emittedPeaks, roundingRecord, HumeData.prosody,
      HumeData.vocalBurst, prosody_peak, vocal_burst_peak, mkSeg, Segment.dom,
      sortStable, insertStable, List.filterMap_cons, List.filterMap_nil,
      Option.getD_some, Option.getD_none]
  have hne : extract_emotional_peaks roundingRecord 5 (151/500) ≠ [] := by
    intro h0
    rw [h0] at hmap
    simp at hmap
  exact ⟨_, List.head_mem hne,
    extract_peaks_score_within_rounding_of_threshold roundingRecord 5 (151/500) _
      (List.head_mem hne)⟩

/-- C3: the extraction result has length at most `top_n`, is sorted by
weakly descending stored score, and equals the `top_n`-prefix of the
stable descending sort of the emission list (prosody-derived peaks in
segment order, then vocal-burst-derived peaks in segment order); ties are
stable, since for every score value the sorted list restricted to that
score equals the emission list restricted to it. -/
theorem extract_peaks_sorted_bounded_stable (h : HumeData) (top_n : ℕ) (threshold : ℚ) :
    (extract_emotional_peaks h top_n threshold).length ≤ top_n
      ∧ (extract_emotional_peaks h top_n threshold).Pairwise
          (fun a b => b.score ≤ a.score)
      ∧ extract_emotional_peaks h top_n threshold
          = (sortStable peakKeep (emittedPeaks h threshold)).take top_n
      ∧ ∀ s : ℚ,
          (sortStable peakKeep (emittedPeaks h threshold)).filter
              (fun p => decide (p.score = s))
            = (emittedPeaks h threshold).filter (fun p => decide (p.score = s)) := by
  refine ⟨?_, ?_, rfl, ?_⟩
  · simp only [extract_emotional_peaks, List.length_take]
    exact min_le_left _ _
  · have hs : (sortStable peakKeep (emittedPeaks h threshold)).Pairwise peakKeep :=
      pairwise_sortStable peakKeep peakKeep_trans peakKeep_total _
    exact hs.sublist (List.take_sublist _ _)
  · intro s
    refine filter_sortStable peakKeep peakKeep_trans peakKeep_total _ ?_ _
    intro a b ha hb
    have h1 := of_decide_eq_true ha
    have h2 := of_decide_eq_true hb
    unfold peakKeep
    rw [h1, h2]

theorem foldlM_congr_some {α β : Type} {f : β → α → Option β} {g : β → α → β} :
    ∀ (l : List α), (∀ x ∈ l, ∀ acc, f acc x = some (g acc x)) →
      ∀ b, l.foldlM f b = some (l.foldl g b) := by
  intro l
  induction l with
  | nil => intro _ b; rfl
  | cons c l' ih =>
    intro hfg b
    rw [List.foldlM_cons, hfg c (List.mem_cons_self c l')]
    simp only [Option.bind_eq_bind, Option.some_bind, List.foldl_cons]
    exact ih (fun x hx acc => hfg x (List.mem_cons_of_mem _ hx) acc) (g b c)

theorem foldl_append_toList {α β : Type} (f : α → Option β) (l : List α) (acc : List β) :
    l.foldl (fun acc x => acc ++ (f x).toList) acc = acc ++ l.filterMap f := by
  induction l generalizing acc with
  | nil => simp
  | cons c l' ih =>
    simp only [List.foldl_cons]
    rw [ih]
    cases hc : f c <;> simp [List.filterMap_cons, hc]

theorem extract_emotional_peaksO_eq (h : HumeData) (n : ℕ) (t : ℚ) :
    extract_emotional_peaksO h n t = some (extract_emotional_peaks h n t) := by
  have h1 := @foldlM_congr_some Segment (List Peak)
    (fun acc seg => pure (acc ++ (prosody_peak t seg).toList))
    (fun acc seg => acc ++ (prosody_peak t seg).toList)
    h.prosody (fun _ _ _ => rfl) []
  have h2 := @foldlM_congr_some Segment (List Peak)
    (fun acc seg => pure (acc ++ (vocal_burst_peak t seg).toList))
    (fun acc seg => acc ++ (vocal_burst_peak t seg).toList)
    h.vocalBurst (fun _ _ _ => rfl)
    (h.prosody.foldl (fun acc seg => acc ++ (prosody_peak t seg).toList) [])
  simp only [extract_emotional_peaksO, h1, Option.bind_eq_bind, Option.some_bind, h2]
  rw [extract_emotional_peaks, emittedPeaks, foldl_append_toList, foldl_append_toList]
  simp

theorem detect_emotional_transitionsO_eq (h : HumeData) (ct : ℚ) :
    detect_emotional_transitionsO h ct = some (detect_emotional_transitions h ct) := by
  simp only [detect_emotional_transitionsO, detect_emotional_transitions]
  apply foldlM_congr_some
  intro i hi acc
  rcases List.mem_range'_1.mp hi with ⟨hi1, hi2⟩
  have hilen : i < h.prosody.length := by omega
  have him : i - 1 < h.prosody.length := by omega
  rw [List.getElem?_eq_getElem hilen, List.getElem?_eq_getElem him]
  rfl

theorem moodSummaryO_eq (h : HumeData) : moodSummaryO h = some (moodSummary h) := by
  cases hl : h.language with
  | nil => simp [moodSummaryO, moodSummary, hl]
  | cons a l => simp [moodSummaryO, moodSummary, hl]

theorem create_emotional_summaryO_eq (h : HumeData) (strategy : String)
    (th : ℚ) (tn : ℕ) (ct : ℚ) :
    create_emotional_summaryO h strategy th tn ct
      = some (create_emotional_summary h strategy th tn ct) := by
  simp only [create_emotional_summaryO, create_emotional_summary, moodSummaryO_eq,
    Option.bind_eq_bind, Option.some_bind]
  by_cases hs1 : strategy = "peaks"
  · simp [hs1, extract_emotional_peaksO_eq]
  · by_cases hs2 : strategy = "transitions"
    · simp [hs1, hs2, detect_emotional_transitionsO_eq]
    · by_cases hs3 : strategy = "full_summary"
      · simp only [hs1, hs2, hs3, if_false, if_true, iff_false, if_neg, eq_self_iff_true,
          extract_emotional_peaksO_eq, detect_emotional_transitionsO_eq,
          Option.bind_eq_bind, Option.some_bind]
        cases hts : detect_emotional_transitions h (25/100) with
        | nil => simp [hts]
        | cons t0 rest => simp [hts]
      · simp [hs1, hs2, hs3]

theorem mergeStepRevO_eq (acc : List CandidateInterval) (c : CandidateInterval) :
    mergeStepRevO acc c = some (mergeStepRev acc c) := by
  cases acc with
  | nil => rfl
  | cons last rest =>
    have hne : ((last :: rest).isEmpty = true) = False := by simp
    simp only [mergeStepRevO, mergeStepRev, hne, if_false, List.head?_cons,
      Option.bind_eq_bind, Option.some_bind, List.tail_cons]
    split_ifs <;> rfl

theorem identify_punchline_candidatesO_eq (h : HumeData) (w : ℚ) :
    identify_punchline_candidatesO h w = some (identify_punchline_candidates h w) := by
  simp only [identify_punchline_candidatesO, identify_punchline_candidates,
    extract_emotional_peaksO_eq, Option.bind_eq_bind, Option.some_bind, mergeIntervals]
  rw [foldlM_congr_some _ (fun x _ acc => mergeStepRevO_eq acc x) _]
  simp only [Option.bind_eq_bind, Option.some_bind]
  rfl

/-- C2: the four stages are total over the defined input shape.  The
fallible variants, in which every raw subscript access of the source is a
fallible lookup and which return `none` exactly where the Python code
would raise, succeed on every record (with arbitrary missing channels and
nested fields, which the total functions read back as the defaults 0,
"Unknown" and the empty list) and compute the same results as the total
embeddings. -/
theorem core_total_on_input_shape (h : HumeData) (top_n tn : ℕ)
    (threshold change_threshold time_window th ct : ℚ) (strategy : String) :
    extract_emotional_peaksO h top_n threshold
        = some (extract_emotional_peaks h top_n threshold)
      ∧ detect_emotional_transitionsO h change_threshold
        = some (detect_emotional_transitions h change_threshold)
      ∧ create_emotional_summaryO h strategy th tn ct
        = some (create_emotional_summary h strategy th tn ct)
      ∧ identify_punchline_candidatesO h time_window
        = some (identify_punchline_candidates h time_window) :=
  ⟨extract_emotional_peaksO_eq h top_n threshold,
   detect_emotional_transitionsO_eq h change_threshold,
   create_emotional_summaryO_eq h strategy th tn ct,
   identify_punchline_candidatesO_eq h time_window⟩

/-- C4: the transition detector returns the empty sequence on records
with fewer than 2 prosody segments, and the per-pair emitter never emits
a transition for an adjacent pair whose raw dominant-emotion names are
equal (including both absent). -/
theorem detect_transitions_short_and_unequal (h : HumeData) (ct : ℚ) :
    (h.prosody.length < 2 → detect_emotional_transitions h ct = [])
      ∧ ∀ prev curr : Segment,
          (Segment.dom prev).name = (Segment.dom curr).name →
            transitionAt ct prev curr = none := by
  constructor
  · intro hlen
    simp only [detect_emotional_transitions]
    have h0 : h.prosody.length - 1 = 0 := by omega
    rw [h0]
    rfl
  · intro prev curr heq
    simp [transitionAt, heq]

theorem detect_transitions_short_and_unequal_witness :
    detect_emotional_transitions oneSegRecord (1/5) = []
      ∧ transitionAt (1/5) (mkSeg 0 "Joy" (1/2)) (mkSeg 0 "Joy" (1/2)) = none :=
  ⟨(detect_transitions_short_and_unequal oneSegRecord (1/5)).1
      (by simp [oneSegRecord, HumeData.prosody]),
   (detect_transitions_short_and_unequal oneSegRecord (1/5)).2 _ _ rfl⟩

theorem sepRev_mergeStepRev {acc : List CandidateInterval} (c : CandidateInterval)
    (h : SepRev acc) : SepRev (mergeStepRev acc c) := by
  cases acc with
  | nil => simp [mergeStepRev, SepRev]
  | cons last rest =>
    simp only [mergeStepRev]
    split_ifs with hc
    · rcases List.chain'_cons'.mp h with ⟨hhead, htail⟩
      refine List.chain'_cons'.mpr ⟨?_, htail⟩
      intro b hb
      simpa [mergeTwo] using hhead b hb
    · exact List.chain'_cons.mpr ⟨not_le.mp hc, h⟩

theorem sepRev_foldl (l : List CandidateInterval) :
    ∀ acc, SepRev acc → SepRev (l.foldl mergeStepRev acc) := by
  induction l with
  | nil => intro acc h; exact h
  | cons c l' ih => intro acc h; exact ih _ (sepRev_mergeStepRev c h)

theorem separated_mergeIntervals (l : List CandidateInterval) :
    Separated (mergeIntervals l) := by
  have h := sepRev_foldl l [] (by simp [SepRev])
  unfold mergeIntervals Separated
  rw [List.chain'_reverse]
  exact h

theorem foldl_mergeStepRev_of_separated :
    ∀ (m acc : List CandidateInterval), Separated m →
      (∀ a b, acc.head? = some a → m.head? = some b → a.stop < b.start) →
      m.foldl mergeStepRev acc = m.reverse ++ acc := by
  intro m
  induction m with
  | nil => intro acc _ _; simp
  | cons c m' ih =>
    intro acc hsep hlink
    have hstep : mergeStepRev acc c = c :: acc := by
      cases acc with
      | nil => rfl
      | cons last rest =>
        have hlt : last.stop < c.start := hlink last c rfl rfl
        simp only [mergeStepRev]
        rw [if_neg (not_le.mpr hlt)]
    rcases List.chain'_cons'.mp hsep with ⟨hhead, htail⟩
    rw [List.foldl_cons, hstep, ih (c :: acc) htail ?link]
    · simp
    case link =>
      intro a b ha hb
      rw [List.head?_cons, Option.some_inj] at ha
      subst ha
      exact hhead b hb

/-- C5: the merge sweep is idempotent: applying the sweep to the output
of a sweep (indeed, to any list it could have produced) returns that
output unchanged, with no start, end, or reason modified. -/
theorem merge_pass_idempotent (l : List CandidateInterval) :
    mergeIntervals (mergeIntervals l) = mergeIntervals l := by
  have hsep := separated_mergeIntervals l
  conv_lhs => rw [mergeIntervals]
  rw [foldl_mergeStepRev_of_separated (mergeIntervals l) [] hsep
    (by intro a b ha hb; simp at ha)]
  simp

theorem mergeStepRev_wf {acc : List CandidateInterval} {c : CandidateInterval}
    (hacc : ∀ x ∈ acc, 0 ≤ x.start ∧ x.start ≤ x.stop)
    (hc : 0 ≤ c.start ∧ c.start ≤ c.stop) :
    ∀ x ∈ mergeStepRev acc c, 0 ≤ x.start ∧ x.start ≤ x.stop := by
  cases acc with
  | nil =>
    intro x hx
    simp only [mergeStepRev, List.mem_singleton] at hx
    subst hx
    exact hc
  | cons last rest =>
    intro x hx
    simp only [mergeStepRev] at hx
    split_ifs at hx with hcond
    · rcases List.mem_cons.mp hx with rfl | hx'
      · have hlast := hacc last (List.mem_cons_self _ _)
        exact ⟨hlast.1, le_trans hlast.2 (le_max_right _ _)⟩
      · exact hacc x (List.mem_cons_of_mem _ hx')
    · rcases List.mem_cons.mp hx with rfl | hx'
      · exact hc
      · exact hacc x hx'

theorem foldl_mergeStepRev_wf :
    ∀ (l acc : List CandidateInterval),
      (∀ x ∈ acc, 0 ≤ x.start ∧ x.start ≤ x.stop) →
      (∀ x ∈ l, 0 ≤ x.start ∧ x.start ≤ x.stop) →
      ∀ x ∈ l.foldl mergeStepRev acc, 0 ≤ x.start ∧ x.start ≤ x.stop := by
  intro l
  induction l with
  | nil => intro acc hacc _ x hx; exact hacc x hx
  | cons c l' ih =>
    intro acc hacc hl x hx
    rw [List.foldl_cons] at hx
    refine ih _ (mergeStepRev_wf hacc (hl c (List.mem_cons_self _ _))) ?_ x hx
    intro y hy
    exact hl y (List.mem_cons_of_mem _ hy)

/-- C6: when every segment begin time of the record is non-negative and
the window is non-negative, every candidate interval the builder returns
has a non-negative start and an end at least its start. -/
theorem candidate_intervals_wellformed (h : HumeData) (w : ℚ)
    (hw : 0 ≤ w) (hb : begTimesNonneg h) :
    ∀ c ∈ identify_punchline_candidates h w, 0 ≤ c.start ∧ c.start ≤ c.stop := by
  intro c hc
  simp only [identify_punchline_candidates] at hc
  have hc2 := List.take_subset _ _ hc
  rw [mergeIntervals, List.mem_reverse] at hc2
  refine foldl_mergeStepRev_wf _ [] (by simp) ?_ c hc2
  intro x hx
  have hx' := (mem_sortStable intervalKeep).mp hx
  rcases List.mem_append.mp hx' with hx'' | hx''
  · rcases List.mem_map.mp hx'' with ⟨p, hp, rfl⟩
    have ht : 0 ≤ p.time :=
      time_nonneg_of_mem_emitted hb (mem_emitted_of_mem_extract hp)
    simp only [peakInterval]
    constructor
    · exact le_max_left _ _
    · apply max_le <;> linarith
  · rcases List.mem_map.mp hx'' with ⟨seg, hseg, rfl⟩
    have ht : 0 ≤ seg.time_begin.getD 0 := hb seg (List.mem_append_right _ hseg)
    simp only [burstInterval]
    constructor
    · exact le_max_left _ _
    · apply max_le <;> linarith

theorem candidate_intervals_wellformed_witness :
    ∃ c, c ∈ identify_punchline_candidates peakAt5Record 2
      ∧ (0 ≤ c.start ∧ c.start ≤ c.stop) := by
  have hmap : (identify_punchline_candidates peakAt5Record 2).map
      (fun c => (c.start, c.stop)) = [((3:ℚ), (7:ℚ))] := by
    norm_num [identify_punchline_candidates, extract_emotional_peaks, emittedPeaks,
      peakAt5Record, HumeData.prosody, HumeData.vocalBurst, prosody_peak,
      vocal_burst_peak, mkSeg, Segment.dom, sortStable, insertStable,
      List.filterMap_cons, List.filterMap_nil, mergeIntervals, mergeStepRev,
      peakInterval, burstInterval, max_def]
  have hne : identify_punchline_candidates peakAt5Record 2 ≠ [] := by
    intro h0
    rw [h0] at hmap
    simp at hmap
  exact ⟨_, List.head_mem hne,
    candidate_intervals_wellformed peakAt5Record 2 (by norm_num)
      (by norm_num [begTimesNonneg, peakAt5Record, HumeData.prosody,
            HumeData.vocalBurst, mkSeg])
      _ (List.head_mem hne)⟩

/-- C7: under strategy `full_summary`, when at least one transition
exists the `emotional_arc` value is the arrow-joined, first-occurrence
deduplicated sequence of the first transition's `from_emotion` followed
by the `to_emotion`s of the first 3 transitions, exactly as the
specification words it; when no transition exists the key is absent. -/
theorem full_summary_arc_spec (h : HumeData) (th : ℚ) (tn : ℕ) (ct : ℚ) :
    (create_emotional_summary h "full_summary" th tn ct).emotional_arc
      = match detect_emotional_transitions h (25/100) with
        | [] => none
        | t0 :: rest => some (String.intercalate " → " (specArcParts t0 (t0 :: rest))) := by
  simp only [create_emotional_summary]
  rw [if_neg (by decide), if_neg (by decide), if_pos (by decide)]
  cases hts : detect_emotional_transitions h (25/100) with
  | nil => cases hl : h.language <;> simp [moodSummary, hl, Summary.empty]
  | cons t0 rest =>
    simp only [specArcParts, List.foldl_map]
    rw [if_neg (List.not_mem_nil t0.from_emotion)]

/-- C8: any strategy string outside the three recognized ones yields the
mood-only summary: no error, no peaks, transitions, key-moments or arc
keys, and the empty summary when no language segments exist. -/
theorem unknown_strategy_mood_only (h : HumeData) (s : String)
    (th : ℚ) (tn : ℕ) (ct : ℚ)
    (h1 : s ≠ "peaks") (h2 : s ≠ "transitions") (h3 : s ≠ "full_summary") :
    create_emotional_summary h s th tn ct = moodSummary h
      ∧ (moodSummary h).emotional_peaks = none
      ∧ (moodSummary h).emotional_transitions = none
      ∧ (moodSummary h).key_moments = none
      ∧ (moodSummary h).emotional_arc = none
      ∧ (h.language = [] → moodSummary h = Summary.empty) := by
  have hm : (moodSummary h).emotional_peaks = none
      ∧ (moodSummary h).emotional_transitions = none
      ∧ (moodSummary h).key_moments = none
      ∧ (moodSummary h).emotional_arc = none := by
    cases hl : h.language <;> simp [moodSummary, hl, Summary.empty]
  refine ⟨?_, hm.1, hm.2.1, hm.2.2.1, hm.2.2.2, ?_⟩
  · simp only [create_emotional_summary]
    rw [if_neg h1, if_neg h2, if_neg h3]
  · intro hl
    simp [moodSummary, hl]

theorem unknown_strategy_mood_only_witness :
    create_emotional_summary emptyRecord "mood" (3/10) 5 (1/5) = moodSummary emptyRecord
      ∧ (moodSummary emptyRecord).emotional_peaks = none
      ∧ (moodSummary emptyRecord).emotional_transitions = none
      ∧ (moodSummary emptyRecord).key_moments = none
      ∧ (moodSummary emptyRecord).emotional_arc = none
      ∧ (emptyRecord.language = [] → moodSummary emptyRecord = Summary.empty) :=
  unknown_strategy_mood_only emptyRecord "mood" (3/10) 5 (1/5)
    (by decide) (by decide) (by decide)

theorem vb_append_ne (rest : String) (s : String)
    (hns : ¬ ("VocalBurst:".data <+: s.data)) : "VocalBurst:" ++ rest ≠ s := by
  intro h
  apply hns
  have h2 := congrArg String.data h
  rw [String.data_append] at h2
  exact h2 ▸ List.prefix_append _ _

theorem vb_append_not_mem (rest : String) (L : List String)
    (hL : ∀ s ∈ L, ¬ ("VocalBurst:".data <+: s.data)) :
    ("VocalBurst:" ++ rest) ∉ L := by
  intro hm
  exact vb_append_ne rest _ (hL _ hm) rfl

/-- C9: a peak label carrying the `VocalBurst:` marker (that is, equal to
`VocalBurst:` followed by some remainder, exactly how the extractor
builds vocal-burst labels) is never matched by the four exact,
case-sensitive category lists of the candidate builder, so it always
receives the generic `Strong <label> moment` reason with the full marked
label interpolated. -/
theorem vocal_burst_label_generic_reason (label : String)
    (hpre : ∃ rest, label = "VocalBurst:" ++ rest) :
    reasonFor label = "Strong " ++ label ++ " moment" := by
  obtain ⟨rest, rfl⟩ := hpre
  simp only [reasonFor]
  rw [if_neg (vb_append_not_mem rest _ (by decide)),
    if_neg (vb_append_not_mem rest _ (by decide)),
    if_neg (vb_append_not_mem rest _ (by decide)),
    if_neg (vb_append_not_mem rest _ (by decide))]

theorem vocal_burst_label_generic_reason_witness :
    reasonFor "VocalBurst:Amusement" = "Strong " ++ "VocalBurst:Amusement" ++ " moment" :=
  vocal_burst_label_generic_reason "VocalBurst:Amusement" ⟨"Amusement", by decide⟩

/-- C10: on a record where the `full_summary` peak extraction (top 3,
threshold 0.35) finds nothing, the composer still sets `key_moments` to
the empty list, and the formatter then emits a `Key moments: ` line with
empty content; by contrast an `emotional_peaks` key holding the empty
list produces exactly the same lines as an absent `emotional_peaks` key. -/
theorem full_summary_empty_key_moments_line (h : HumeData) (th : ℚ) (tn : ℕ) (ct : ℚ) :
    (extract_emotional_peaks h 3 (35/100) = [] →
      (create_emotional_summary h "full_summary" th tn ct).key_moments
          = some ([] : List KeyMoment)
        ∧ "Key moments: "
            ∈ format_lines (create_emotional_summary h "full_summary" th tn ct))
      ∧ ∀ s : Summary, s.emotional_peaks = some ([] : List Peak) →
          format_lines s = format_lines { s with emotional_peaks := none } := by
  constructor
  · intro hemp
    have hkm : (create_emotional_summary h "full_summary" th tn ct).key_moments
        = some ([] : List KeyMoment) := by
      simp only [create_emotional_summary]
      rw [if_neg (by decide), if_neg (by decide), if_pos (by decide), hemp]
      cases hts : detect_emotional_transitions h (25/100) <;> simp
    refine ⟨hkm, ?_⟩
    simp only [format_lines, hkm]
    have hline : "Key moments: " ++ String.intercalate ", "
        ((List.take 2 ([] : List KeyMoment)).map (fun m => m.event ++ " at " ++ m.time))
        = "Key moments: " := rfl
    rw [hline]
    exact List.mem_append_right _ (List.mem_singleton.mpr rfl)
  · intro s hs
    simp [format_lines, hs]

theorem full_summary_empty_key_moments_line_witness :
    ((create_emotional_summary emptyRecord "full_summary" (3/10) 5 (1/5)).key_moments
          = some ([] : List KeyMoment)
        ∧ "Key moments: "
            ∈ format_lines (create_emotional_summary emptyRecord "full_summary" (3/10) 5 (1/5)))
      ∧ format_lines peaksEmptySummary
          = format_lines { peaksEmptySummary with emotional_peaks := none } :=
  ⟨(full_summary_empty_key_moments_line emptyRecord (3/10) 5 (1/5)).1 rfl,
   (full_summary_empty_key_moments_line emptyRecord (3/10) 5 (1/5)).2 peaksEmptySummary rfl⟩

end HumeProcessor
